import Mathlib

/-!
Verification of the split-data-loader storage library.

The development shallowly embeds the Python source `splitdataloader/__init__.py`
and `splitdataloader/multiproc_queue_itr.py`:

* files are byte lists (`List Nat`, each entry a byte value);
* the dataset directory is a structure `FS` holding the association list of bin
  files (`bin{index}.dat`, keyed by the integer index, in creation order) and
  the content of `index.dat`;
* `struct.pack("<I", n)` / `struct.unpack("<I", bs)` become `u32le` /
  `decodeU32`; `struct.pack` raises `struct.error` for values outside
  `[0, 2^32)`, which the writer embedding reflects by returning `none`;
* fallible readers return `Except Err`, where `Err` distinguishes the
  exception kinds of the source (`ValueError` with its distinct messages,
  `struct.error`, `IOError`, `FileNotFoundError`).
-/

set_option autoImplicit false

namespace SplitData

/-- Error kinds raised by the source, one constructor per distinct
exception site/kind:

* `unableToReadValue` — `ValueError("unable to read value for ...")` in
  `SplitDataLoader.__getitem__` while reading the index triplet;
* `unableToReadSize` — `ValueError("unable to read size for ...")` in
  `__getitem__` while reading the size prefix in the bin file;
* `sizeMismatch` — `ValueError("Size mismatch ...")` in `__getitem__`;
* `structUnpackError` — `struct.error` raised by `struct.unpack("<I", data)`
  when `data` is non-empty but shorter than 4 bytes;
* `truncatedRead` — `IOError("Read size mismatch ...")` in
  `read_size_prefixed`;
* `fileNotFound` — `FileNotFoundError` when opening a missing bin file. -/
inductive Err where
  | unableToReadValue
  | unableToReadSize
  | sizeMismatch
  | structUnpackError
  | truncatedRead
  | fileNotFound
  deriving DecidableEq, Repr

instance {ε α : Type} [DecidableEq ε] [DecidableEq α] :
    DecidableEq (Except ε α) := fun x y =>
  match x, y with
  | .error a, .error b =>
    if h : a = b then .isTrue (by rw [h]) else .isFalse (fun hc => h (Except.error.inj hc))
  | .ok a, .ok b =>
    if h : a = b then .isTrue (by rw [h]) else .isFalse (fun hc => h (Except.ok.inj hc))
  | .error _, .ok _ => .isFalse (fun hc => Except.noConfusion hc)
  | .ok _, .error _ => .isFalse (fun hc => Except.noConfusion hc)

/-- Little-endian 4-byte encoding of a number, as written by
`struct.pack("<I", n)` (meaningful for `n < 2^32`). -/
def u32le (n : Nat) : List Nat :=
  [n % 256, n / 256 % 256, n / 65536 % 256, n / 16777216 % 256]

/-- Little-endian decoding of a 4-byte buffer, as `struct.unpack("<I", bs)`. -/
def decodeU32 (bs : List Nat) : Nat :=
  match bs with
  | [a, b, c, d] => a + 256 * b + 65536 * c + 16777216 * d
  | _ => 0

@[simp] theorem length_u32le (n : Nat) : (u32le n).length = 4 := rfl

theorem decodeU32_u32le (n : Nat) (h : n < 4294967296) :
    decodeU32 (u32le n) = n := by
  simp only [u32le, decodeU32]
  omega

/-- The dataset directory: the bin files as an association list
`(bin index, file content)` in creation order, and the content of
`index.dat`.  A bin index absent from `bins` means the file
`bin{index}.dat` does not exist. -/
structure FS where
  bins : List (Nat × List Nat)
  index : List Nat
  deriving DecidableEq, Repr

/-- Content of `bin{i}.dat`, `none` when the file does not exist. -/
def lookupBin : List (Nat × List Nat) → Nat → Option (List Nat)
  | [], _ => none
  | (k, c) :: rest, i => if k = i then some c else lookupBin rest i

/-- Replace the content of `bin{i}.dat`, creating the file (at the end of
the directory listing) when absent — the effect of writing via
`open(bin_file, "ab")`. -/
def updateBin : List (Nat × List Nat) → Nat → List Nat → List (Nat × List Nat)
  | [], i, c => [(i, c)]
  | (k, b) :: rest, i, c =>
    if k = i then (k, c) :: rest else (k, b) :: updateBin rest i c

/-- Bytes returned by `reader.seek(pos); reader.read(n)` on a file with the
given content: at most `n` bytes starting at `pos` (empty at or past EOF). -/
def readBytes (file : List Nat) (pos n : Nat) : List Nat :=
  (file.drop pos).take n

/-- Embedding of `read_struct_unpack` at a given file position: read up to 4
bytes; an empty read yields `(False, 0)`, a full read yields the decoded
value, and a partial 1–3 byte read makes `struct.unpack` raise
`struct.error`. -/
def read_struct_unpack (file : List Nat) (pos : Nat) : Except Err (Bool × Nat) :=
  if (readBytes file pos 4).length = 0 then .ok (false, 0)
  else if (readBytes file pos 4).length = 4 then .ok (true, decodeU32 (readBytes file pos 4))
  else .error .structUnpackError

/-- One iteration of the loop body of `write_split_data` for a record `data`
destined to bin `binIdx`: append the size-prefixed record to the bin file
(recording the previous end-of-file offset as `position`) and append the
triplet `(binIdx, position, length)` to the index file.  `struct.pack("<I", _)`
raises `struct.error` for values `≥ 2^32`, embedded as `none`. -/
def writeOne (fs : FS) (binIdx : Nat) (data : List Nat) : Option FS :=
  if data.length < 4294967296 ∧ binIdx < 4294967296 ∧
      ((lookupBin fs.bins binIdx).getD []).length < 4294967296 then
    some { bins := updateBin fs.bins binIdx
             ((lookupBin fs.bins binIdx).getD [] ++ u32le data.length ++ data),
           index := fs.index ++ u32le binIdx ++
             u32le ((lookupBin fs.bins binIdx).getD []).length ++ u32le data.length }
  else none

/-- The `for idx, data in enumerate(input_sequence)` loop of
`write_split_data`.  `getBin j` is the bin index chosen for insertion
position `j`; it is `none` when the source raises `IndexError`
(the shuffled case evaluates `indexes[idx]` with no bound check). -/
def writeLoop (getBin : Nat → Option Nat) : Nat → List (List Nat) → FS → Option FS
  | _, [], fs => some fs
  | j, data :: rest, fs =>
    match getBin j with
    | none => none
    | some b =>
      match writeOne fs b data with
      | none => none
      | some fs1 => writeLoop getBin (j + 1) rest fs1

/-- Embedding of `write_split_data`.

* `records` — the input sequence of byte blobs;
* `shuffle` / `indexes` — when `shuffle` is true the source draws one random
  permutation `indexes = random.shuffle(list(range(splits)))`; the permutation
  is passed explicitly so that theorems quantify over every outcome.  The
  source looks the bin up as `indexes[idx]` — the raw enumeration index, with
  no reduction modulo `splits`;
* with `shuffle` false the source likewise uses the raw enumeration index
  `idx` directly as the bin index (no modulo);
* `startClean` — `shutil.rmtree` followed by `mkdir` leaves an empty
  directory; otherwise the pre-existing directory `init` is kept;
* in both cases `open(index_file_path, "wb")` truncates `index.dat`. -/
def write_split_data (records : List (List Nat)) (shuffle : Bool)
    (indexes : List Nat) (startClean : Bool) (init : FS) : Option FS :=
  let fs0 : FS :=
    if startClean then { bins := [], index := [] }
    else { bins := init.bins, index := [] }
  writeLoop (fun j => if shuffle then indexes.get? j else some j) 0 records fs0

/-- Embedding of `SplitDataLoader.__len__`: index file size integer-divided
by the 12-byte index packet size. -/
def datasetLen (fs : FS) : Nat :=
  fs.index.length / 12

/-- Embedding of `SplitDataLoader.__getitem__`: read the triplet
`(index, position, length)` at offset `12 * idx` of `index.dat` (three
sequential `read_struct_unpack` calls; an invalid read raises
`ValueError("unable to read value ...")`), open the resolved bin file, read
the size prefix at `position` (an invalid read raises
`ValueError("unable to read size ...")`), compare it against the recorded
`length` (`ValueError("Size mismatch ...")` when they differ), and finally
return `reader.read(length)` — with no check that `length` bytes were in
fact available. -/
def getitem (fs : FS) (idx : Nat) : Except Err (List Nat) :=
  let location := 12 * idx
  match read_struct_unpack fs.index location with
  | .error e => .error e
  | .ok (false, _) => .error .unableToReadValue
  | .ok (true, binIdx) =>
    match read_struct_unpack fs.index (location + 4) with
    | .error e => .error e
    | .ok (false, _) => .error .unableToReadValue
    | .ok (true, position) =>
      match read_struct_unpack fs.index (location + 8) with
      | .error e => .error e
      | .ok (false, _) => .error .unableToReadValue
      | .ok (true, length) =>
        match lookupBin fs.bins binIdx with
        | none => .error .fileNotFound
        | some bin =>
          match read_struct_unpack bin position with
          | .error e => .error e
          | .ok (false, _) => .error .unableToReadSize
          | .ok (true, packetSize) =>
            if packetSize ≠ length then .error .sizeMismatch
            else .ok (readBytes bin (position + 4) length)

/-- The triplet `(bin index, byte offset, length)` recorded for logical
record `i`, read exactly as the first half of `__getitem__` reads it
(`none` when any of the three reads is not a clean full read). -/
def readTriplet (file : List Nat) (i : Nat) : Option (Nat × Nat × Nat) :=
  match read_struct_unpack file (12 * i) with
  | .ok (true, a) =>
    match read_struct_unpack file (12 * i + 4) with
    | .ok (true, b) =>
      match read_struct_unpack file (12 * i + 8) with
      | .ok (true, c) => some (a, b, c)
      | _ => none
    | _ => none
  | _ => none

/-- Embedding of `read_size_prefixed`, consuming from the front of the
remaining file content: returns `(valid, data, remaining)`.  An empty read of
the size prefix gives `valid = False`; a partial prefix raises
`struct.error`; a payload shorter than the prefix promises raises
`IOError("Read size mismatch ...")`. -/
def read_size_prefixed (buf : List Nat) : Except Err (Bool × List Nat × List Nat) :=
  if buf.length = 0 then .ok (false, [], buf)
  else if buf.length < 4 then .error .structUnpackError
  else if (buf.drop 4).length < decodeU32 (buf.take 4) then .error .truncatedRead
  else .ok (true, (buf.drop 4).take (decodeU32 (buf.take 4)),
    (buf.drop 4).drop (decodeU32 (buf.take 4)))

/-- Fuel-indexed unfolding of the `while True` loop of
`read_all_size_prefixed_packets`.  Each successful `read_size_prefixed`
consumes at least 4 bytes, so `fuel = buf.length` always suffices; the
fuel-exhausted branch is unreachable for that choice
(see `readAllAux_congr` and `read_all_unfold`). -/
def readAllAux : Nat → List Nat → Except Err (List (List Nat))
  | 0, buf =>
    match read_size_prefixed buf with
    | .ok (false, _, _) => .ok []
    | _ => .error .truncatedRead
  | fuel + 1, buf =>
    match read_size_prefixed buf with
    | .error e => .error e
    | .ok (false, _, _) => .ok []
    | .ok (true, data, rest) =>
      match readAllAux fuel rest with
      | .error e => .error e
      | .ok tl => .ok (data :: tl)

/-- Embedding of `read_all_size_prefixed_packets`: decode size-prefixed
packets from the start of a bin file until a clean end-of-file. -/
def read_all_size_prefixed_packets (buf : List Nat) : Except Err (List (List Nat)) :=
  readAllAux buf.length buf

theorem read_size_prefixed_false {buf : List Nat} {d r : List Nat}
    (h : read_size_prefixed buf = .ok (false, d, r)) : buf = [] := by
  unfold read_size_prefixed at h
  split at h
  · next hl => exact List.length_eq_zero.mp hl
  · split at h
    · exact absurd h (by simp)
    · split at h
      · exact absurd h (by simp)
      · exact absurd h (by simp)

theorem read_size_prefixed_true {buf : List Nat} {d r : List Nat}
    (h : read_size_prefixed buf = .ok (true, d, r)) :
    4 ≤ buf.length ∧ r.length < buf.length := by
  unfold read_size_prefixed at h
  split at h
  · exact absurd h (by simp)
  · split at h
    · exact absurd h (by simp)
    · next h0 h4 =>
      split at h
      · exact absurd h (by simp)
      · refine ⟨by omega, ?_⟩
        have hr : r = (buf.drop 4).drop (decodeU32 (buf.take 4)) := by
          have := h
          simp only [Except.ok.injEq, Prod.mk.injEq] at this
          exact this.2.2.symm
        subst hr
        simp only [List.length_drop]
        omega

theorem readAllAux_congr :
    ∀ (f1 f2 : Nat) (buf : List Nat), buf.length ≤ f1 → buf.length ≤ f2 →
      readAllAux f1 buf = readAllAux f2 buf := by
  intro f1
  induction f1 with
  | zero =>
    intro f2 buf h1 _
    have hb : buf = [] := by
      cases buf with
      | nil => rfl
      | cons a l => simp at h1
    subst hb
    cases f2 <;> rfl
  | succ f ih =>
    intro f2 buf h1 h2
    cases f2 with
    | zero =>
      have hb : buf = [] := by
        cases buf with
        | nil => rfl
        | cons a l => simp at h2
      subst hb
      rfl
    | succ f2 =>
      show (match read_size_prefixed buf with
        | Except.error e => Except.error e
        | Except.ok (false, _, _) => Except.ok []
        | Except.ok (true, data, rest) =>
          match readAllAux f rest with
          | Except.error e => Except.error e
          | Except.ok tl => Except.ok (data :: tl)) =
        (match read_size_prefixed buf with
        | Except.error e => Except.error e
        | Except.ok (false, _, _) => Except.ok []
        | Except.ok (true, data, rest) =>
          match readAllAux f2 rest with
          | Except.error e => Except.error e
          | Except.ok tl => Except.ok (data :: tl))
      cases hr : read_size_prefixed buf with
      | error e => rfl
      | ok v =>
        obtain ⟨valid, data, rest⟩ := v
        cases valid with
        | false => rfl
        | true =>
          have hlen := read_size_prefixed_true hr
          have heq := ih f2 rest (by omega) (by omega)
          dsimp only
          rw [heq]

/-- The faithful loop equation for `read_all_size_prefixed_packets`: read one
size-prefixed packet; a `(False, …)` result breaks the loop, errors
propagate, otherwise the packet is accumulated and the loop continues on the
remaining bytes. -/
theorem read_all_unfold (buf : List Nat) :
    read_all_size_prefixed_packets buf =
      match read_size_prefixed buf with
      | .error e => .error e
      | .ok (false, _, _) => .ok []
      | .ok (true, data, rest) =>
        match read_all_size_prefixed_packets rest with
        | .error e => .error e
        | .ok tl => .ok (data :: tl) := by
  unfold read_all_size_prefixed_packets
  cases buf with
  | nil => rfl
  | cons a l =>
    show (match read_size_prefixed (a :: l) with
      | Except.error e => Except.error e
      | Except.ok (false, _, _) => Except.ok []
      | Except.ok (true, data, rest) =>
        match readAllAux l.length rest with
        | Except.error e => Except.error e
        | Except.ok tl => Except.ok (data :: tl)) = _
    cases hr : read_size_prefixed (a :: l) with
    | error e => rfl
    | ok v =>
      obtain ⟨valid, data, rest⟩ := v
      cases valid with
      | false => rfl
      | true =>
        have hlen := read_size_prefixed_true hr
        have heq : readAllAux l.length rest = readAllAux rest.length rest :=
          readAllAux_congr l.length rest.length rest (by simp at hlen; omega) le_rfl
        dsimp only
        rw [heq]

/-! Cross-process queue protocol (`multiproc_queue_itr.py`), with the bounded
channel modelled as a FIFO list of the values pushed by the worker. -/

/-- A value travelling over the channel: either a produced item or the
`EndOfQueue` sentinel object. -/
inductive QItem (α : Type) where
  | item (a : α)
  | endOfQueue
  deriving DecidableEq, Repr

/-- Whether a channel value is the end-of-stream sentinel (the
`isinstance(item, EndOfQueue)` test of `MpQItr.__next__`). -/
def isEndOfQueue {α : Type} : QItem α → Bool
  | QItem.item _ => false
  | QItem.endOfQueue => true

/-- Outcome of driving the producer `itr_func(*args, **kwargs)` to
completion inside the worker: either it finished after yielding `items`, or
it raised after yielding `items` (the prefix produced before the failure). -/
inductive ProducerOutcome (α : Type) where
  | finished (items : List α)
  | raised (items : List α)
  deriving DecidableEq, Repr

/-- The items the producer yielded before finishing or failing. -/
def producedItems {α : Type} : ProducerOutcome α → List α
  | ProducerOutcome.finished l => l
  | ProducerOutcome.raised l => l

/-- Embedding of `iterator_handler`: push every yielded item onto the queue
in production order; on a producer failure, log it (no channel effect); in
either case, push exactly one `EndOfQueue` sentinel as the final action. -/
def iterator_handler {α : Type} (run : ProducerOutcome α) : List (QItem α) :=
  (producedItems run).map QItem.item ++ [QItem.endOfQueue]

/-- Draining the consumer side `MpQItr.__next__`: pop values in FIFO order,
yielding items until the sentinel (or channel end) stops iteration. -/
def drainQueue {α : Type} : List (QItem α) → List α
  | [] => []
  | QItem.item a :: rest => a :: drainQueue rest
  | QItem.endOfQueue :: _ => []

/-! Closed form of the state written by one clean non-shuffled session.
With `shuffle` false the source uses the raw enumeration index as the bin
index, so the record at insertion position `j0 + k` lands alone in bin
`j0 + k` at byte offset 0. -/

/-- Bin files created by the non-shuffled loop from insertion position `j0`:
one bin per record, holding the size-prefixed record. -/
def cleanBins : Nat → List (List Nat) → List (Nat × List Nat)
  | _, [] => []
  | j0, r :: rest => (j0, u32le r.length ++ r) :: cleanBins (j0 + 1) rest

/-- Index-file bytes written by the non-shuffled loop from insertion
position `j0`: one `(bin index, byte offset 0, length)` triplet per record. -/
def cleanIndex : Nat → List (List Nat) → List Nat
  | _, [] => []
  | j0, r :: rest => u32le j0 ++ u32le 0 ++ u32le r.length ++ cleanIndex (j0 + 1) rest

theorem lookupBin_append_of_none {bs : List (Nat × List Nat)} {m : Nat}
    (l2 : List (Nat × List Nat)) (h : lookupBin bs m = none) :
    lookupBin (bs ++ l2) m = lookupBin l2 m := by
  induction bs with
  | nil => rfl
  | cons p rest ih =>
    obtain ⟨k, c⟩ := p
    by_cases hk : k = m
    · simp [lookupBin, hk] at h
    · simp only [lookupBin, hk, if_false, List.cons_append] at h ⊢
      exact ih h

theorem updateBin_of_none {bs : List (Nat × List Nat)} {i : Nat}
    (c : List Nat) (h : lookupBin bs i = none) :
    updateBin bs i c = bs ++ [(i, c)] := by
  induction bs with
  | nil => rfl
  | cons p rest ih =>
    obtain ⟨k, b⟩ := p
    by_cases hk : k = i
    · simp [lookupBin, hk] at h
    · simp only [lookupBin, hk, if_false] at h
      simp only [updateBin, hk, if_false, List.cons_append, ih h]

theorem read_struct_unpack_of_eof {file : List Nat} {pos : Nat}
    (h : file.length ≤ pos) : read_struct_unpack file pos = .ok (false, 0) := by
  unfold read_struct_unpack readBytes
  have : (file.drop pos).take 4 = [] := by
    have : file.drop pos = [] := List.drop_eq_nil_of_le h
    simp [this]
  simp [this]

theorem read_struct_unpack_of_full {file : List Nat} {pos v : Nat}
    (h : readBytes file pos 4 = u32le v) (hv : v < 4294967296) :
    read_struct_unpack file pos = .ok (true, v) := by
  unfold read_struct_unpack
  rw [h]
  simp [decodeU32_u32le v hv]

theorem writeLoop_clean (records : List (List Nat)) :
    ∀ (j0 : Nat) (bs : List (Nat × List Nat)) (ix : List Nat),
      (∀ r ∈ records, r.length < 4294967296) →
      j0 + records.length ≤ 4294967296 →
      (∀ k, k < records.length → lookupBin bs (j0 + k) = none) →
      writeLoop (fun j => some j) j0 records ⟨bs, ix⟩ =
        some ⟨bs ++ cleanBins j0 records, ix ++ cleanIndex j0 records⟩ := by
  induction records with
  | nil =>
    intro j0 bs ix _ _ _
    simp [writeLoop, cleanBins, cleanIndex]
  | cons r rest ih =>
    intro j0 bs ix hlen hb hfresh
    have h0 : lookupBin bs j0 = none := by
      have := hfresh 0 (by simp)
      simpa using this
    have hr : r.length < 4294967296 := hlen r (by simp)
    have hj : j0 < 4294967296 := by
      simp only [List.length_cons] at hb
      omega
    have hw : writeOne ⟨bs, ix⟩ j0 r =
        some ⟨bs ++ [(j0, u32le r.length ++ r)],
          ix ++ u32le j0 ++ u32le 0 ++ u32le r.length⟩ := by
      unfold writeOne
      simp only [h0, Option.getD_none, List.length_nil, List.nil_append]
      rw [if_pos ⟨hr, hj, by omega⟩, updateBin_of_none _ h0]
    have hstep : writeLoop (fun j => some j) j0 (r :: rest) ⟨bs, ix⟩ =
        writeLoop (fun j => some j) (j0 + 1) rest
          ⟨bs ++ [(j0, u32le r.length ++ r)],
            ix ++ u32le j0 ++ u32le 0 ++ u32le r.length⟩ := by
      show (match writeOne ⟨bs, ix⟩ j0 r with
        | none => none
        | some fs1 => writeLoop (fun j => some j) (j0 + 1) rest fs1) = _
      rw [hw]
    rw [hstep, ih (j0 + 1) _ _ (fun x hx => hlen x (by simp [hx]))
      (by simp only [List.length_cons] at hb; omega) ?_]
    · simp only [cleanBins, cleanIndex, List.append_assoc, List.singleton_append,
        List.cons_append, List.nil_append]
    · intro k hk
      have hnb : lookupBin bs (j0 + 1 + k) = none := by
        have := hfresh (k + 1) (by simp; omega)
        have harith : j0 + (k + 1) = j0 + 1 + k := by omega
        rwa [harith] at this
      rw [lookupBin_append_of_none _ hnb]
      simp only [lookupBin]
      rw [if_neg (by omega)]

theorem cleanIndex_drop (records : List (List Nat)) :
    ∀ (j0 i : Nat), i ≤ records.length →
      (cleanIndex j0 records).drop (12 * i) = cleanIndex (j0 + i) (records.drop i) := by
  induction records with
  | nil =>
    intro j0 i hi
    have : i = 0 := by simpa using hi
    subst this
    simp [cleanIndex]
  | cons r rest ih =>
    intro j0 i hi
    cases i with
    | zero => simp
    | succ i =>
      have h12 : 12 * (i + 1) = 12 + 12 * i := by omega
      have hchunk : cleanIndex j0 (r :: rest) =
          (u32le j0 ++ u32le 0 ++ u32le r.length) ++ cleanIndex (j0 + 1) rest := by
        simp [cleanIndex, List.append_assoc]
      have hlen12 : (u32le j0 ++ u32le 0 ++ u32le r.length).length = 12 := by simp
      rw [h12, hchunk, ← List.drop_drop]
      rw [show ((u32le j0 ++ u32le 0 ++ u32le r.length) ++ cleanIndex (j0 + 1) rest).drop 12 =
        cleanIndex (j0 + 1) rest from by rw [← hlen12]; exact List.drop_left _ _]
      rw [ih (j0 + 1) i (by simp at hi; omega)]
      congr 1
      omega

theorem cleanBins_lookup (records : List (List Nat)) :
    ∀ (j0 i : Nat) (hi : i < records.length),
      lookupBin (cleanBins j0 records) (j0 + i) =
        some (u32le (records.get ⟨i, hi⟩).length ++ records.get ⟨i, hi⟩) := by
  induction records with
  | nil => intro j0 i hi; simp at hi
  | cons r rest ih =>
    intro j0 i hi
    cases i with
    | zero => simp [cleanBins, lookupBin]
    | succ i =>
      have hne : ¬ j0 = j0 + (i + 1) := by omega
      simp only [cleanBins, lookupBin, hne, if_false]
      have harith : j0 + (i + 1) = j0 + 1 + i := by omega
      rw [harith, ih (j0 + 1) i (by simp at hi; omega)]
      rfl

theorem cleanIndex_triplet (records : List (List Nat)) (i : Nat)
    (hi : i < records.length) (hn : records.length ≤ 4294967296)
    (hr : records[i].length < 4294967296) :
    read_struct_unpack (cleanIndex 0 records) (12 * i) = .ok (true, i) ∧
    read_struct_unpack (cleanIndex 0 records) (12 * i + 4) = .ok (true, 0) ∧
    read_struct_unpack (cleanIndex 0 records) (12 * i + 8) =
      .ok (true, records[i].length) := by
  have hdrop : (cleanIndex 0 records).drop (12 * i) =
      u32le i ++ (u32le 0 ++ (u32le records[i].length ++
        cleanIndex (i + 1) (records.drop (i + 1)))) := by
    rw [cleanIndex_drop records 0 i (by omega), List.drop_eq_getElem_cons hi]
    simp [cleanIndex, List.append_assoc]
  have htail4 : (cleanIndex 0 records).drop (12 * i + 4) =
      u32le 0 ++ (u32le records[i].length ++ cleanIndex (i + 1) (records.drop (i + 1))) := by
    rw [← List.drop_drop, hdrop]
    rw [show (4 : Nat) = (u32le i).length from by simp]
    exact List.drop_left _ _
  have htail8 : (cleanIndex 0 records).drop (12 * i + 8) =
      u32le records[i].length ++ cleanIndex (i + 1) (records.drop (i + 1)) := by
    rw [show 12 * i + 8 = 12 * i + 4 + 4 from by omega, ← List.drop_drop, htail4]
    rw [show (4 : Nat) = (u32le 0).length from by simp]
    exact List.drop_left _ _
  refine ⟨?_, ?_, ?_⟩
  · refine read_struct_unpack_of_full ?_ (by omega)
    unfold readBytes
    rw [hdrop, show (4 : Nat) = (u32le i).length from by simp]
    exact List.take_left _ _
  · refine read_struct_unpack_of_full ?_ (by omega)
    unfold readBytes
    rw [htail4, show (4 : Nat) = (u32le 0).length from by simp]
    exact List.take_left _ _
  · refine read_struct_unpack_of_full ?_ hr
    unfold readBytes
    rw [htail8, show (4 : Nat) = (u32le records[i].length).length from by simp]
    exact List.take_left _ _

theorem getitem_clean (records : List (List Nat)) (i : Nat)
    (hi : i < records.length) (hn : records.length ≤ 4294967296)
    (hr : records[i].length < 4294967296) :
    getitem ⟨cleanBins 0 records, cleanIndex 0 records⟩ i = .ok records[i] := by
  obtain ⟨h0, h4, h8⟩ := cleanIndex_triplet records i hi hn hr
  have hlook : lookupBin (cleanBins 0 records) i =
      some (u32le records[i].length ++ records[i]) := by
    have := cleanBins_lookup records 0 i hi
    simp only [Nat.zero_add] at this
    rw [this]
    simp [List.get_eq_getElem]
  have hbin0 : read_struct_unpack (u32le records[i].length ++ records[i]) 0 =
      .ok (true, records[i].length) := by
    refine read_struct_unpack_of_full ?_ hr
    unfold readBytes
    rw [List.drop_zero, show (4 : Nat) = (u32le records[i].length).length from by simp]
    exact List.take_left _ _
  unfold getitem
  dsimp only
  rw [h0, h4, h8]
  dsimp only
  rw [hlook]
  dsimp only
  rw [hbin0]
  dsimp only
  rw [if_neg (by simp)]
  have hdata : readBytes (u32le records[i].length ++ records[i]) (0 + 4)
      records[i].length = records[i] := by
    unfold readBytes
    rw [show (0 + 4 : Nat) = (u32le records[i].length).length from by simp,
      List.drop_left, List.take_length]
  rw [hdata]

theorem write_split_data_clean (records : List (List Nat))
    (hlen : ∀ r ∈ records, r.length < 4294967296)
    (hn : records.length ≤ 4294967296) :
    write_split_data records false [] true ⟨[], []⟩ =
      some ⟨cleanBins 0 records, cleanIndex 0 records⟩ := by
  have hfs : write_split_data records false [] true ⟨[], []⟩ =
      writeLoop (fun j => some j) 0 records ⟨[], []⟩ := by
    unfold write_split_data
    simp
  rw [hfs, writeLoop_clean records 0 [] [] hlen (by omega) (fun k _ => rfl)]
  simp

/-- C1 (confirmed): round-trip for a clean non-shuffled write session.  For
every finite sequence of byte records whose lengths and count fit in `u32`
(`struct.pack("<I", ·)` raises beyond that), after
`write_split_data(target_dir, records, splits, shuffle=False, start_clean=True)`
the loader returns record `i` byte-for-byte for every `i < N`; moreover the
index triplet written for `i` is `(bin index, byte offset 0, length)` and the
resolved bin file holds the `u32` length prefix followed by exactly the bytes
of record `i` at that offset. -/
theorem c1_round_trip (records : List (List Nat))
    (hlen : ∀ r ∈ records, r.length < 4294967296)
    (hn : records.length ≤ 4294967296)
    (i : Nat) (hi : i < records.length) :
    ∃ fs : FS, write_split_data records false [] true ⟨[], []⟩ = some fs ∧
      getitem fs i = .ok records[i] ∧
      readTriplet fs.index i = some (i, 0, records[i].length) ∧
      lookupBin fs.bins i = some (u32le records[i].length ++ records[i]) := by
  have hri : records[i].length < 4294967296 := hlen _ (List.getElem_mem hi)
  refine ⟨⟨cleanBins 0 records, cleanIndex 0 records⟩,
    write_split_data_clean records hlen hn,
    getitem_clean records i hi hn hri, ?_, ?_⟩
  · obtain ⟨h0, h4, h8⟩ := cleanIndex_triplet records i hi hn hri
    unfold readTriplet
    rw [show (12 * i + 4 : Nat) = 12 * i + 4 from rfl] at h4
    rw [h0, h4, h8]
  · have := cleanBins_lookup records 0 i hi
    simp only [Nat.zero_add] at this
    rw [this]
    simp [List.get_eq_getElem]

/-- Witness for C1 at a concrete two-record input (one record of length 1,
one of length 0). -/
theorem c1_round_trip_witness :
    ∃ fs : FS, write_split_data [[97], []] false [] true ⟨[], []⟩ = some fs ∧
      getitem fs 0 = .ok [97] ∧
      readTriplet fs.index 0 = some (0, 0, 1) ∧
      lookupBin fs.bins 0 = some (u32le 1 ++ [97]) := by
  have h := c1_round_trip [[97], []] (by decide) (by decide) 0 (by decide)
  simpa using h

/-- C2 (code bug): the source uses the raw insertion index as the bin index
— there is no reduction modulo `splits` in `write_split_data` — so writing
`[b"a", b"bb", b"ccc"]` with `splits = 2, shuffle = False` creates THREE bin
files `bin00000000.dat`, `bin00000001.dat`, `bin00000002.dat`; bin 0 holds
only record 0 and record 2 lands in bin 2, contradicting the claimed
`i mod splits` assignment (which would put records 0 and 2 together in
bin 0 and never create bin 2). -/
theorem c2_bin_assignment_no_modulo :
    (write_split_data [[97], [98, 98], [99, 99, 99]] false [] true ⟨[], []⟩).map
        (fun fs => (fs.bins.map Prod.fst, lookupBin fs.bins 0, lookupBin fs.bins 2)) =
      some ([0, 1, 2], some (u32le 1 ++ [97]), some (u32le 3 ++ [99, 99, 99])) := by
  decide

/-- C3 (code bug): with `shuffle = True` the source evaluates
`indexes[idx]` at the raw insertion position `idx` with no reduction modulo
`splits`, so as soon as the number of records exceeds `splits` the write
raises `IndexError` instead of completing.  Here: two records,
`splits = 1` (whose only permutation is `[0]`). -/
theorem c3_shuffle_index_error (indexes : List Nat)
    (h : indexes.Perm (List.range 1)) :
    write_split_data [[], []] true indexes true ⟨[], []⟩ = none := by
  have hr1 : List.range 1 = [0] := rfl
  rw [hr1] at h
  have hix : indexes = [0] := List.perm_singleton.mp h
  subst hix
  decide

/-- Witness for C3 at the unique permutation of `range 1`. -/
theorem c3_shuffle_index_error_witness :
    write_split_data [[], []] true [0] true ⟨[], []⟩ = none :=
  c3_shuffle_index_error [0] (by decide)

/-- C7 (code bug): `write_split_data` opens `index.dat` with mode `"wb"`,
truncating it, while bin files are opened with `"ab"`.  Writing `[b"x"]` in a
clean session and then `[b"y"]` with `start_clean = False` leaves a dataset
of length 1 whose record 0 is `b"y"`; the claim's `M + N = 2` records with
`b"x"` still at index 0 does not hold (index 1 is out of range afterwards). -/
theorem c7_second_session_truncates_index :
    ((write_split_data [[120]] false [] true ⟨[], []⟩).bind
        (fun fs1 => write_split_data [[121]] false [] false fs1)).map
        (fun fs2 => (datasetLen fs2, getitem fs2 0, getitem fs2 1)) =
      some (1, .ok [121], .error .unableToReadValue) := by
  rfl

/-- C10 (confirmed): writing an empty sequence into a fresh directory — for
every `shuffle` outcome and `start_clean` setting — produces a directory
with an empty `index.dat`, no bin files at all, and a dataset of length 0. -/
theorem c10_empty_sequence (shuffle startClean : Bool) (indexes : List Nat) :
    ∃ fs : FS, write_split_data [] shuffle indexes startClean ⟨[], []⟩ = some fs ∧
      fs.bins = [] ∧ fs.index = [] ∧ datasetLen fs = 0 := by
  refine ⟨⟨[], []⟩, ?_, rfl, rfl, rfl⟩
  unfold write_split_data
  cases startClean <;> rfl

theorem read_struct_unpack_cases (file : List Nat) (pos : Nat) :
    (file.length ≤ pos ∧ read_struct_unpack file pos = .ok (false, 0)) ∨
    (pos < file.length ∧ file.length < pos + 4 ∧
      read_struct_unpack file pos = .error .structUnpackError) ∨
    (pos + 4 ≤ file.length ∧
      read_struct_unpack file pos = .ok (true, decodeU32 (readBytes file pos 4))) := by
  have hlen : (readBytes file pos 4).length = min 4 (file.length - pos) := by
    simp [readBytes]
  by_cases h1 : file.length ≤ pos
  · exact Or.inl ⟨h1, read_struct_unpack_of_eof h1⟩
  · by_cases h2 : file.length < pos + 4
    · refine Or.inr (Or.inl ⟨by omega, h2, ?_⟩)
      unfold read_struct_unpack
      rw [hlen, if_neg (by omega), if_neg (by omega)]
    · refine Or.inr (Or.inr ⟨by omega, ?_⟩)
      unfold read_struct_unpack
      rw [hlen, if_neg (by omega), if_pos (by omega)]

/-- C4 counterexample: an index file of 2 bytes cannot supply 3 complete u32
values at offset 0, yet the lookup fails with `struct.error` (raised by
`struct.unpack` on the 2-byte partial read), while an index at or beyond the
record count on a cleanly truncated file fails with
`ValueError("unable to read value ...")` — two different error kinds, where
the claim asserts a single kind for both situations. -/
theorem c4_two_error_kinds :
    getitem ⟨[], [0, 0]⟩ 0 = .error .structUnpackError ∧
    getitem ⟨[], []⟩ 0 = .error .unableToReadValue ∧
    Err.structUnpackError ≠ Err.unableToReadValue := by
  decide

/-- C4 amended: whenever the index file cannot supply 3 complete u32 values
at offset `12 * i` (which covers `i` at or beyond the record count as well
as a truncated index file), `dataset[i]` fails and never returns data — but
under one of TWO error kinds: `ValueError` when the failing read hits a
clean end-of-file, `struct.error` when a partial 1–3 byte word remains. -/
theorem c4_out_of_range_never_returns (fs : FS) (i : Nat)
    (h : fs.index.length < 12 * i + 12) :
    getitem fs i = .error .unableToReadValue ∨
    getitem fs i = .error .structUnpackError := by
  unfold getitem
  dsimp only
  rcases read_struct_unpack_cases fs.index (12 * i) with ⟨h1, he⟩ | ⟨h1, h2, he⟩ | ⟨h1, he⟩
  · rw [he]; exact Or.inl rfl
  · rw [he]; exact Or.inr rfl
  · rw [he]
    dsimp only
    rcases read_struct_unpack_cases fs.index (12 * i + 4) with
      ⟨g1, ge⟩ | ⟨g1, g2, ge⟩ | ⟨g1, ge⟩
    · rw [ge]; exact Or.inl rfl
    · rw [ge]; exact Or.inr rfl
    · rw [ge]
      dsimp only
      rcases read_struct_unpack_cases fs.index (12 * i + 8) with
        ⟨k1, ke⟩ | ⟨k1, k2, ke⟩ | ⟨k1, ke⟩
      · rw [ke]; exact Or.inl rfl
      · rw [ke]; exact Or.inr rfl
      · omega

/-- Witness for C4's amended statement on a 2-byte index file. -/
theorem c4_out_of_range_never_returns_witness :
    getitem ⟨[], [0, 0]⟩ 0 = .error .unableToReadValue ∨
    getitem ⟨[], [0, 0]⟩ 0 = .error .structUnpackError :=
  c4_out_of_range_never_returns ⟨[], [0, 0]⟩ 0 (by decide)

theorem getitem_of_triplet {fs : FS} {i a b c : Nat}
    (h : readTriplet fs.index i = some (a, b, c)) :
    getitem fs i =
      match lookupBin fs.bins a with
      | none => .error .fileNotFound
      | some bin =>
        match read_struct_unpack bin b with
        | .error e => .error e
        | .ok (false, _) => .error .unableToReadSize
        | .ok (true, packetSize) =>
          if packetSize ≠ c then .error .sizeMismatch
          else .ok (readBytes bin (b + 4) c) := by
  unfold readTriplet at h
  unfold getitem
  dsimp only
  cases h0 : read_struct_unpack fs.index (12 * i) with
  | error e => rw [h0] at h; simp at h
  | ok v0 =>
    obtain ⟨valid0, a0⟩ := v0
    rw [h0] at h
    cases valid0 with
    | false => simp at h
    | true =>
      dsimp only at h ⊢
      cases h4 : read_struct_unpack fs.index (12 * i + 4) with
      | error e => rw [h4] at h; simp at h
      | ok v4 =>
        obtain ⟨valid4, b0⟩ := v4
        rw [h4] at h
        cases valid4 with
        | false => simp at h
        | true =>
          dsimp only at h ⊢
          cases h8 : read_struct_unpack fs.index (12 * i + 8) with
          | error e => rw [h8] at h; simp at h
          | ok v8 =>
            obtain ⟨valid8, c0⟩ := v8
            rw [h8] at h
            cases valid8 with
            | false => simp at h
            | true =>
              dsimp only at h ⊢
              simp only [Option.some.injEq, Prod.mk.injEq] at h
              obtain ⟨ha, hb, hc⟩ := h
              rw [ha, hb, hc]

/-- C5 (confirmed): for an index `i` whose triplet `(a, b, c)` is readable
and resolves to an existing bin file in which a full 4-byte prefix can be
read at offset `b`, the lookup fails with the SizeMismatch kind exactly when
the decoded prefix differs from the recorded length `c`; when they differ it
never returns data. -/
theorem c5_size_mismatch_iff (fs : FS) (i a b c : Nat) (bin : List Nat)
    (htrip : readTriplet fs.index i = some (a, b, c))
    (hbin : lookupBin fs.bins a = some bin)
    (hpre : b + 4 ≤ bin.length) :
    (getitem fs i = .error .sizeMismatch ↔ decodeU32 (readBytes bin b 4) ≠ c) ∧
    (decodeU32 (readBytes bin b 4) ≠ c → ∀ d, getitem fs i ≠ .ok d) := by
  have hred := getitem_of_triplet htrip
  rw [hbin] at hred
  dsimp only at hred
  rcases read_struct_unpack_cases bin b with ⟨h1, _⟩ | ⟨_, h2, _⟩ | ⟨_, he⟩
  · omega
  · omega
  · rw [he] at hred
    dsimp only at hred
    by_cases hne : decodeU32 (readBytes bin b 4) ≠ c
    · rw [if_pos hne] at hred
      refine ⟨⟨fun _ => hne, fun _ => hred⟩, fun _ d => ?_⟩
      rw [hred]
      simp
    · rw [if_neg hne] at hred
      refine ⟨⟨fun hcontra => ?_, fun hc => absurd hc hne⟩,
        fun hc => absurd hc hne⟩
      rw [hred] at hcontra
      simp at hcontra

/-- Witness for C5: recorded length 5, stored prefix 7 — SizeMismatch. -/
theorem c5_size_mismatch_iff_witness :
    (getitem ⟨[(0, [7, 0, 0, 0, 1, 2, 3, 4, 5, 6, 7])],
        [0, 0, 0, 0, 0, 0, 0, 0, 5, 0, 0, 0]⟩ 0 = .error .sizeMismatch ↔
      decodeU32 (readBytes [7, 0, 0, 0, 1, 2, 3, 4, 5, 6, 7] 0 4) ≠ 5) ∧
    (decodeU32 (readBytes [7, 0, 0, 0, 1, 2, 3, 4, 5, 6, 7] 0 4) ≠ 5 →
      ∀ d, getitem ⟨[(0, [7, 0, 0, 0, 1, 2, 3, 4, 5, 6, 7])],
        [0, 0, 0, 0, 0, 0, 0, 0, 5, 0, 0, 0]⟩ 0 ≠ .ok d) :=
  c5_size_mismatch_iff ⟨[(0, [7, 0, 0, 0, 1, 2, 3, 4, 5, 6, 7])],
      [0, 0, 0, 0, 0, 0, 0, 0, 5, 0, 0, 0]⟩ 0 0 0 5
    [7, 0, 0, 0, 1, 2, 3, 4, 5, 6, 7] (by decide) (by decide) (by decide)

/-- C6 counterexample: index triplet records length 5 at offset 0 of bin 0,
the bin file holds a correct prefix of 5 but only 2 payload bytes; the
random-access lookup returns the short 2-byte string `b"ab"` with no error
(the source's `__getitem__` never checks the payload read), while the
sequential decoder raises the TruncatedRead kind on the same bin content. -/
theorem c6_returns_short_data :
    getitem ⟨[(0, [5, 0, 0, 0, 97, 98])],
        [0, 0, 0, 0, 0, 0, 0, 0, 5, 0, 0, 0]⟩ 0 = .ok [97, 98] ∧
    ([97, 98] : List Nat).length ≠ 5 ∧
    read_all_size_prefixed_packets [5, 0, 0, 0, 97, 98] = .error .truncatedRead := by
  decide

/-- C6 amended: `dataset[i]` requests `length` payload bytes but silently
returns whatever is available (possibly fewer) — it can never fail with the
TruncatedRead kind; the TruncatedRead (`IOError`) check lives only in
`read_size_prefixed`, which raises it exactly when the buffer holds a full
length prefix promising more bytes than remain. -/
theorem c6_truncation_only_binwise :
    (∀ (fs : FS) (i : Nat), getitem fs i ≠ .error .truncatedRead) ∧
    (∀ buf : List Nat, 4 ≤ buf.length →
      (buf.drop 4).length < decodeU32 (buf.take 4) →
      read_size_prefixed buf = .error .truncatedRead) := by
  constructor
  · intro fs i
    unfold getitem
    dsimp only
    rcases read_struct_unpack_cases fs.index (12 * i) with ⟨_, he⟩ | ⟨_, _, he⟩ | ⟨_, he⟩ <;>
      rw [he]
    · simp
    · simp
    · dsimp only
      rcases read_struct_unpack_cases fs.index (12 * i + 4) with
        ⟨_, ge⟩ | ⟨_, _, ge⟩ | ⟨_, ge⟩ <;> rw [ge]
      · simp
      · simp
      · dsimp only
        rcases read_struct_unpack_cases fs.index (12 * i + 8) with
          ⟨_, ke⟩ | ⟨_, _, ke⟩ | ⟨_, ke⟩ <;> rw [ke]
        · simp
        · simp
        · dsimp only
          cases hlook : lookupBin fs.bins (decodeU32 (readBytes fs.index (12 * i) 4)) with
          | none => simp
          | some bin =>
            dsimp only
            rcases read_struct_unpack_cases bin (decodeU32 (readBytes fs.index (12 * i + 4) 4)) with
              ⟨_, pe⟩ | ⟨_, _, pe⟩ | ⟨_, pe⟩ <;> rw [pe]
            · simp
            · simp
            · dsimp only
              split
              · simp
              · simp
  · intro buf h4 hshort
    unfold read_size_prefixed
    rw [if_neg (by omega), if_neg (by omega), if_pos hshort]

/-- Witness for C6's amended statement. -/
theorem c6_truncation_only_binwise_witness :
    (getitem ⟨[(0, [5, 0, 0, 0, 97, 98])],
        [0, 0, 0, 0, 0, 0, 0, 0, 5, 0, 0, 0]⟩ 0 ≠ .error .truncatedRead) ∧
    read_size_prefixed [5, 0, 0, 0, 97, 98] = .error .truncatedRead :=
  ⟨c6_truncation_only_binwise.1 ⟨[(0, [5, 0, 0, 0, 97, 98])],
      [0, 0, 0, 0, 0, 0, 0, 0, 5, 0, 0, 0]⟩ 0,
    c6_truncation_only_binwise.2 [5, 0, 0, 0, 97, 98] (by decide) (by decide)⟩

theorem read_all_single (data : List Nat) (h : data.length < 4294967296) :
    read_all_size_prefixed_packets (u32le data.length ++ data) = .ok [data] := by
  have htake : (u32le data.length ++ data).take 4 = u32le data.length := by
    rw [show (4 : Nat) = (u32le data.length).length from by simp]
    exact List.take_left _ _
  have hdrop : (u32le data.length ++ data).drop 4 = data := by
    rw [show (4 : Nat) = (u32le data.length).length from by simp]
    exact List.drop_left _ _
  have h1 : read_size_prefixed (u32le data.length ++ data) = .ok (true, data, []) := by
    unfold read_size_prefixed
    rw [htake, hdrop, decodeU32_u32le _ h]
    rw [if_neg (by simp only [List.length_append, length_u32le]; omega),
      if_neg (by simp only [List.length_append, length_u32le]; omega),
      if_neg (by omega), List.take_length, List.drop_length]
  rw [read_all_unfold, h1]
  exact rfl

theorem read_size_prefixed_append (c X : List Nat) (d rest : List Nat)
    (hr : read_size_prefixed c = .ok (true, d, rest)) :
    read_size_prefixed (c ++ X) = .ok (true, d, rest ++ X) := by
  by_cases h0 : c.length = 0
  · unfold read_size_prefixed at hr
    rw [if_pos h0] at hr
    simp at hr
  · by_cases h4 : c.length < 4
    · unfold read_size_prefixed at hr
      rw [if_neg h0, if_pos h4] at hr
      simp at hr
    · by_cases htr : (c.drop 4).length < decodeU32 (c.take 4)
      · unfold read_size_prefixed at hr
        rw [if_neg h0, if_neg h4, if_pos htr] at hr
        simp at hr
      · unfold read_size_prefixed at hr
        rw [if_neg h0, if_neg h4, if_neg htr] at hr
        simp only [Except.ok.injEq, Prod.mk.injEq, true_and] at hr
        obtain ⟨hd, hrest⟩ := hr
        have htake4 : (c ++ X).take 4 = c.take 4 :=
          List.take_append_of_le_length (by omega)
        have hdrop4 : (c ++ X).drop 4 = c.drop 4 ++ X :=
          List.drop_append_of_le_length (by omega)
        unfold read_size_prefixed
        rw [htake4, hdrop4]
        rw [if_neg (by simp only [List.length_append]; omega),
          if_neg (by simp only [List.length_append]; omega),
          if_neg (by simp only [List.length_append]; omega)]
        rw [List.take_append_of_le_length (by omega),
          List.drop_append_of_le_length (by omega), hd, hrest]

theorem read_all_append (c : List Nat) (l : List (List Nat)) (data : List Nat)
    (hc : read_all_size_prefixed_packets c = .ok l)
    (hlen : data.length < 4294967296) :
    read_all_size_prefixed_packets (c ++ (u32le data.length ++ data)) =
      .ok (l ++ [data]) := by
  have H : ∀ (n : Nat) (c : List Nat) (l : List (List Nat)), c.length = n →
      read_all_size_prefixed_packets c = .ok l →
      read_all_size_prefixed_packets (c ++ (u32le data.length ++ data)) =
        .ok (l ++ [data]) := by
    intro n
    induction n using Nat.strong_induction_on with
    | _ n ih =>
      intro c l hn hc
      cases hr : read_size_prefixed c with
      | error e =>
        rw [read_all_unfold, hr] at hc
        simp at hc
      | ok v =>
        obtain ⟨valid, d, rest⟩ := v
        cases valid with
        | false =>
          have hc0 : c = [] := read_size_prefixed_false hr
          subst hc0
          have hl : l = [] := by
            have h2 : read_all_size_prefixed_packets [] = .ok [] := rfl
            rw [h2] at hc
            simpa using hc.symm
          subst hl
          simpa using read_all_single data hlen
        | true =>
          rw [read_all_unfold, hr] at hc
          dsimp only at hc
          cases hrest : read_all_size_prefixed_packets rest with
          | error e => rw [hrest] at hc; simp at hc
          | ok tl =>
            rw [hrest] at hc
            dsimp only at hc
            have hl : l = d :: tl := by
              simpa using hc.symm
            subst hl
            have hsz := read_size_prefixed_true hr
            have hstep := read_size_prefixed_append c (u32le data.length ++ data) d rest hr
            rw [read_all_unfold, hstep]
            dsimp only
            rw [ih rest.length (by omega) rest tl rfl hrest]
            simp
  exact H c.length c l rfl hc

/-- Decoding every bin file of a directory listing, in order: the packets
yielded by `iterate_binwise` are the concatenation of
`read_all_size_prefixed_packets` applied to each bin file visited. -/
def decodeBins : List (Nat × List Nat) → Except Err (List (List Nat))
  | [] => .ok []
  | p :: rest =>
    match read_all_size_prefixed_packets p.2 with
    | .error e => .error e
    | .ok ps =>
      match decodeBins rest with
      | .error e => .error e
      | .ok tl => .ok (ps ++ tl)

theorem decodeBins_updateBin (bs : List (Nat × List Nat)) (b : Nat)
    (data : List Nat) :
    ∀ l : List (List Nat), decodeBins bs = .ok l → data.length < 4294967296 →
    ∃ l2, decodeBins
        (updateBin bs b ((lookupBin bs b).getD [] ++ u32le data.length ++ data)) =
        .ok l2 ∧ l2.Perm (l ++ [data]) := by
  induction bs with
  | nil =>
    intro l hb hlen
    have hl : l = [] := by
      have h2 : decodeBins [] = .ok [] := rfl
      rw [h2] at hb
      simpa using hb.symm
    subst hl
    refine ⟨[data], ?_, by simp⟩
    simp only [lookupBin, Option.getD_none, List.nil_append, updateBin]
    simp [decodeBins, read_all_single data hlen]
  | cons p rest ih =>
    intro l hb hlen
    obtain ⟨k, c⟩ := p
    unfold decodeBins at hb
    cases hps : read_all_size_prefixed_packets c with
    | error e => rw [hps] at hb; simp at hb
    | ok ps =>
      rw [hps] at hb
      dsimp only at hb
      cases hrest : decodeBins rest with
      | error e => rw [hrest] at hb; simp at hb
      | ok tl =>
        rw [hrest] at hb
        dsimp only at hb
        have hl : l = ps ++ tl := by simpa using hb.symm
        subst hl
        by_cases hk : k = b
        · subst hk
          have hcur : (lookupBin ((k, c) :: rest) k).getD [] = c := by
            simp [lookupBin]
          rw [hcur]
          have hupd : updateBin ((k, c) :: rest) k (c ++ u32le data.length ++ data) =
              (k, c ++ u32le data.length ++ data) :: rest := by
            simp [updateBin]
          rw [hupd]
          have henc := read_all_append c ps data hps hlen
          refine ⟨ps ++ [data] ++ tl, ?_, ?_⟩
          · unfold decodeBins
            rw [show c ++ u32le data.length ++ data =
              c ++ (u32le data.length ++ data) from by simp [List.append_assoc]]
            rw [henc]
            dsimp only
            rw [hrest]
          · have h1 : ps ++ [data] ++ tl = ps ++ ([data] ++ tl) := by
              simp [List.append_assoc]
            have h2 : ps ++ tl ++ [data] = ps ++ (tl ++ [data]) := by
              simp [List.append_assoc]
            rw [h1, h2]
            exact List.Perm.append_left ps List.perm_append_comm
        · have hcur : lookupBin ((k, c) :: rest) b = lookupBin rest b := by
            simp [lookupBin, hk]
          rw [hcur]
          have hupd : updateBin ((k, c) :: rest) b
              ((lookupBin rest b).getD [] ++ u32le data.length ++ data) =
              (k, c) :: updateBin rest b
                ((lookupBin rest b).getD [] ++ u32le data.length ++ data) := by
            simp [updateBin, hk]
          rw [hupd]
          obtain ⟨l2, hdec, hperm⟩ := ih tl hrest hlen
          refine ⟨ps ++ l2, ?_, ?_⟩
          · unfold decodeBins
            rw [hps]
            dsimp only
            rw [hdec]
          · have h2 : ps ++ tl ++ [data] = ps ++ (tl ++ [data]) := by
              simp [List.append_assoc]
            rw [h2]
            exact List.Perm.append_left ps hperm

theorem decodeBins_cons_ok {p : Nat × List Nat} {rest : List (Nat × List Nat)}
    {l : List (List Nat)} (h : decodeBins (p :: rest) = .ok l) :
    ∃ ps tl, read_all_size_prefixed_packets p.2 = .ok ps ∧
      decodeBins rest = .ok tl ∧ l = ps ++ tl := by
  unfold decodeBins at h
  cases hps : read_all_size_prefixed_packets p.2 with
  | error e => try rw [hps] at h
               simp at h
  | ok ps =>
    try rw [hps] at h
    dsimp only at h
    cases hrest : decodeBins rest with
    | error e => try rw [hrest] at h
                 simp at h
    | ok tl =>
      try rw [hrest] at h
      dsimp only at h
      exact ⟨ps, tl, rfl, rfl, by simpa using h.symm⟩

theorem decodeBins_cons_intro {p : Nat × List Nat} {rest : List (Nat × List Nat)}
    {ps tl : List (List Nat)}
    (hps : read_all_size_prefixed_packets p.2 = .ok ps)
    (ht : decodeBins rest = .ok tl) :
    decodeBins (p :: rest) = .ok (ps ++ tl) := by
  unfold decodeBins
  rw [hps]
  dsimp only
  rw [ht]

theorem writeLoop_decodeBins (getBin : Nat → Option Nat) (records : List (List Nat)) :
    ∀ (j : Nat) (fs fs2 : FS) (l : List (List Nat)),
      writeLoop getBin j records fs = some fs2 →
      decodeBins fs.bins = .ok l →
      ∃ l2, decodeBins fs2.bins = .ok l2 ∧ l2.Perm (l ++ records) := by
  induction records with
  | nil =>
    intro j fs fs2 l hw hd
    have hfs : fs = fs2 := by
      unfold writeLoop at hw
      simpa using hw
    subst hfs
    exact ⟨l, hd, by simp⟩
  | cons r rest ih =>
    intro j fs fs2 l hw hd
    unfold writeLoop at hw
    cases hg : getBin j with
    | none => rw [hg] at hw; simp at hw
    | some b =>
      rw [hg] at hw
      dsimp only at hw
      cases hone : writeOne fs b r with
      | none => rw [hone] at hw; simp at hw
      | some fs1 =>
        rw [hone] at hw
        dsimp only at hw
        have hfacts : r.length < 4294967296 ∧
            fs1.bins = updateBin fs.bins b
              ((lookupBin fs.bins b).getD [] ++ u32le r.length ++ r) := by
          unfold writeOne at hone
          split at hone
          · rename_i hcond
            obtain ⟨h1, _, _⟩ := hcond
            refine ⟨h1, ?_⟩
            rw [← Option.some.inj hone]
          · simp at hone
        obtain ⟨hrlen, hbins⟩ := hfacts
        obtain ⟨l1, hdec1, hperm1⟩ :=
          decodeBins_updateBin fs.bins b r l hd hrlen
        rw [← hbins] at hdec1
        obtain ⟨l2, hdec2, hperm2⟩ := ih (j + 1) fs1 fs2 l1 hw hdec1
        refine ⟨l2, hdec2, ?_⟩
        have h3 : (l1 ++ rest).Perm ((l ++ [r]) ++ rest) :=
          List.Perm.append_right rest hperm1
        have h4 : (l ++ [r]) ++ rest = l ++ (r :: rest) := by simp
        exact hperm2.trans (h4 ▸ h3)

theorem decodeBins_perm (ord bs : List (Nat × List Nat)) (hord : ord.Perm bs) :
    ∀ l : List (List Nat), decodeBins bs = .ok l →
      ∃ l2, decodeBins ord = .ok l2 ∧ l2.Perm l := by
  induction hord with
  | nil => exact fun l hb => ⟨l, hb, List.Perm.refl l⟩
  | @cons x l1 l2 h ih =>
    intro l hb
    obtain ⟨ps, tl, hps, hrest, rfl⟩ := decodeBins_cons_ok hb
    obtain ⟨tl2, hdec, hperm⟩ := ih tl hrest
    exact ⟨ps ++ tl2, decodeBins_cons_intro hps hdec,
      List.Perm.append_left ps hperm⟩
  | @swap x y l' =>
    intro l hb
    obtain ⟨px, tl1, hpx, hb1, rfl⟩ := decodeBins_cons_ok hb
    obtain ⟨py, tl, hpy, hrest, rfl⟩ := decodeBins_cons_ok hb1
    refine ⟨py ++ (px ++ tl),
      decodeBins_cons_intro hpy (decodeBins_cons_intro hpx hrest), ?_⟩
    have h1 : py ++ (px ++ tl) = (py ++ px) ++ tl := by simp
    have h2 : px ++ (py ++ tl) = (px ++ py) ++ tl := by simp
    rw [h1, h2]
    exact List.Perm.append_right tl List.perm_append_comm
  | trans h1 h2 ih1 ih2 =>
    intro l hb
    obtain ⟨lm, hm, hpm⟩ := ih2 l hb
    obtain ⟨l2, hl2, hp2⟩ := ih1 lm hm
    exact ⟨l2, hl2, hp2.trans hpm⟩

theorem forall2_decode_join (ord : List (Nat × List Nat))
    (pss : List (List (List Nat)))
    (hps : List.Forall₂ (fun p qs => ∃ ls,
      read_all_size_prefixed_packets p.2 = .ok ls ∧ qs.Perm ls) ord pss) :
    ∀ l : List (List Nat), decodeBins ord = .ok l → pss.flatten.Perm l := by
  induction hps with
  | nil =>
    intro l hord
    have hl : l = [] := by
      have h2 : decodeBins [] = .ok [] := rfl
      rw [h2] at hord
      simpa using hord.symm
    subst hl
    simp
  | @cons p qs ordt psst hpq hrest ih =>
    intro l hord
    obtain ⟨ls, hls, hperm⟩ := hpq
    obtain ⟨ps2, tl, hps2, hdec, rfl⟩ := decodeBins_cons_ok hord
    have hls2 : ps2 = ls := by
      rw [hls] at hps2
      simpa using hps2.symm
    subst hls2
    have hj : (qs :: psst).flatten = qs ++ psst.flatten := by simp
    rw [hj]
    exact List.Perm.append hperm (ih tl hdec)

/-- C8 (confirmed): bin-wise completeness.  For every dataset produced by a
completed clean write session — any `shuffle` setting and any outcome
`indexes` of the random permutation — decoding the bin files yields exactly
the multiset of written records: the sorted traversal of `iterate_binwise`
decodes to a permutation of the records, and any traversal that visits the
bin files in any order (`ord.Perm fs.bins` covers both the name-sorted and
the shuffled order) and yields any per-bin reordering of each bin's decoded
packets produces a permutation of the records as well (`List.Perm` of lists
is exactly multiset equality). -/
theorem c8_binwise_completeness (records : List (List Nat)) (shuffle : Bool)
    (indexes : List Nat) (fs : FS)
    (h : write_split_data records shuffle indexes true ⟨[], []⟩ = some fs)
    (ord : List (Nat × List Nat)) (hord : ord.Perm fs.bins)
    (pss : List (List (List Nat)))
    (hps : List.Forall₂ (fun p qs => ∃ ls,
      read_all_size_prefixed_packets p.2 = .ok ls ∧ qs.Perm ls) ord pss) :
    (∃ l, decodeBins fs.bins = .ok l ∧ l.Perm records) ∧
      pss.flatten.Perm records := by
  have h2 : writeLoop (fun j => if shuffle then indexes.get? j else some j)
      0 records ⟨[], []⟩ = some fs := by
    have h3 := h
    unfold write_split_data at h3
    simpa using h3
  have hd0 : decodeBins ([] : List (Nat × List Nat)) = .ok [] := rfl
  obtain ⟨l, hl, hperm⟩ := writeLoop_decodeBins _ records 0 ⟨[], []⟩ fs [] h2 hd0
  have hlp : l.Perm records := by simpa using hperm
  refine ⟨⟨l, hl, hlp⟩, ?_⟩
  obtain ⟨l2, hl2, hp2⟩ := decodeBins_perm ord fs.bins hord l hl
  exact (forall2_decode_join ord pss hps l2 hl2).trans (hp2.trans hlp)

/-- Witness for C8: two records, traversal visiting the bins in reverse
order — the flattened output `[b"b", b"a"]` is a permutation of the records
`[b"a", b"b"]`. -/
theorem c8_binwise_completeness_witness :
    (∃ l, decodeBins (FS.bins ⟨[(0, [1, 0, 0, 0, 97]), (1, [1, 0, 0, 0, 98])],
        [0, 0, 0, 0, 0, 0, 0, 0, 1, 0, 0, 0,
         1, 0, 0, 0, 0, 0, 0, 0, 1, 0, 0, 0]⟩) = .ok l ∧
      l.Perm [[97], [98]]) ∧
    ([[[98]], [[97]]] : List (List (List Nat))).flatten.Perm [[97], [98]] := by
  refine c8_binwise_completeness [[97], [98]] false []
    ⟨[(0, [1, 0, 0, 0, 97]), (1, [1, 0, 0, 0, 98])],
      [0, 0, 0, 0, 0, 0, 0, 0, 1, 0, 0, 0,
       1, 0, 0, 0, 0, 0, 0, 0, 1, 0, 0, 0]⟩ (by decide)
    [(1, [1, 0, 0, 0, 98]), (0, [1, 0, 0, 0, 97])] (by decide)
    [[[98]], [[97]]] ?_
  refine List.Forall₂.cons ⟨[[98]], by decide, by decide⟩ ?_
  exact List.Forall₂.cons ⟨[[97]], by decide, by decide⟩ List.Forall₂.nil

theorem drainQueue_map_append {α : Type} (l : List α) :
    drainQueue (l.map QItem.item ++ [QItem.endOfQueue]) = l := by
  induction l with
  | nil => rfl
  | cons a t ih => simpa [drainQueue] using ih

/-- C9 (confirmed): modelling the bounded channel as a FIFO, the worker
pushes every item the producer yields, in production order, followed by
exactly one `EndOfQueue` sentinel as its final push — also when the producer
raises, in which case the sentinel still follows the items produced so far —
and draining the consumer yields exactly the items pushed before the
sentinel; hence for a finite non-failing producer
(`run = ProducerOutcome.finished items`) draining the wrapper returns the
producer's own sequence. -/
theorem c9_queue_protocol {α : Type} (run : ProducerOutcome α) :
    drainQueue (iterator_handler run) = producedItems run ∧
    (iterator_handler run).countP isEndOfQueue = 1 ∧
    (iterator_handler run).getLast? = some QItem.endOfQueue ∧
    ∀ q ∈ (iterator_handler run).dropLast, isEndOfQueue q = false := by
  refine ⟨drainQueue_map_append (producedItems run), ?_, ?_, ?_⟩
  · unfold iterator_handler
    induction producedItems run with
    | nil => rfl
    | cons a t ih =>
      simp only [List.map_cons, List.cons_append, List.countP_cons, isEndOfQueue,
        Bool.false_eq_true, if_false]
      simp only [List.map_cons, List.cons_append] at ih
      omega
  · exact List.getLast?_concat _
  · unfold iterator_handler
    rw [List.dropLast_concat]
    intro q hq
    obtain ⟨a, _, rfl⟩ := List.mem_map.mp hq
    rfl

end SplitData
